import Mathlib

/-!
Verification of the `nacho` core pipeline (lifter / compiler / linker) of the
bellum repository, shallowly embedded from `src/nacho/core/lifter.rs`,
`src/nacho/core/compiler.rs` and `src/nacho/core/linker.rs`.

Machine integers are modelled as `Nat` with explicit reduction modulo `2^w`
wherever the Rust code can wrap (`pc : u64` incremented, `idx as u32`).
Rust's `HashMap` is modelled as an association list with overwrite-on-insert
(`mapInsert`) and lookup (`mapGet?`); `Result` is modelled as `Except`.
-/

/-- Intermediate representation operations, from `enum IRAp` in `lifter.rs`.
Register operands (`u8` in the source) and address operands (`u64`) are
modelled as `Nat`; no arithmetic is ever performed on them. -/
inductive IRAp where
  | Load : Nat → Nat → IRAp
  | Store : Nat → Nat → IRAp
  | Add : Nat → Nat → Nat → IRAp
  | Sub : Nat → Nat → Nat → IRAp
  | Mul : Nat → Nat → Nat → IRAp
  | Div : Nat → Nat → Nat → IRAp
  | Jmp : Nat → IRAp
  | Bz : Nat → Nat → IRAp
  | Call : Nat → IRAp
  | Ret : IRAp
  | Syscall : Nat → IRAp
deriving DecidableEq, Repr

/-- The lifter's block mapping `HashMap<u64, Vec<IRAp>>`, as an association
list from block key to operation sequence. -/
abbrev BlockMap := List (Nat × List IRAp)

/-- `HashMap::insert`: overwrite the value when the key is present, append
the pair otherwise. -/
def mapInsert {α β : Type} [DecidableEq α] (m : List (α × β)) (k : α) (v : β) :
    List (α × β) :=
  if m.any (fun p => p.1 = k) then
    m.map (fun p => if p.1 = k then (k, v) else p)
  else
    m ++ [(k, v)]

/-- `HashMap::get`: first (and, by the `mapInsert` discipline, only) binding
of the key. -/
def mapGet? {α β : Type} [DecidableEq α] (m : List (α × β)) (k : α) : Option β :=
  (m.find? (fun p => p.1 = k)).map (fun p => p.2)

/-- `2^64`, the modulus of the `u64` program counter. -/
def u64Mod : Nat := 18446744073709551616

/-- `2^32`, the modulus of the `u32` import indices. -/
def u32Mod : Nat := 4294967296

/-- The `while i < binary.len()` loop of `Lifter::lift_x64`, with an explicit
fuel argument. Each iteration consumes one unit of fuel and advances `i` by at
least one, so fuel `binary.length` (as supplied by `lift_x64`) is never
exhausted before `i` leaves the buffer: the fuel-out branch is unreachable and
the function computes exactly what the Rust loop does.

Per iteration (faithful to the source): `0x55` pushes `Store(0, 0)` and
advances `i` by 1; `0x48` followed by `0x89 0xe5` (with the source's
`i + 2 < binary.len()` guard) pushes `Add(0, 1, 0)` and advances `i` by 3,
otherwise advances by 1; `0xc3` pushes `Ret`, inserts the accumulated block
into the map keyed by the current `pc`, and clears the accumulator; any other
byte advances `i` by 1. After every iteration `pc` is incremented once
(mod `2^64`), regardless of how many bytes were consumed. -/
def liftLoop (binary : List Nat) :
    Nat → Nat → Nat → List IRAp → BlockMap → BlockMap
  | 0, _, _, _, blocks => blocks
  | fuel + 1, i, pc, current_block, blocks =>
    if h : i < binary.length then
      if binary.get ⟨i, h⟩ = 0x55 then
        liftLoop binary fuel (i + 1) ((pc + 1) % u64Mod)
          (current_block ++ [IRAp.Store 0 0]) blocks
      else if binary.get ⟨i, h⟩ = 0x48 then
        if i + 2 < binary.length ∧ binary.getD (i + 1) 0 = 0x89 ∧
            binary.getD (i + 2) 0 = 0xe5 then
          liftLoop binary fuel (i + 3) ((pc + 1) % u64Mod)
            (current_block ++ [IRAp.Add 0 1 0]) blocks
        else
          liftLoop binary fuel (i + 1) ((pc + 1) % u64Mod) current_block blocks
      else if binary.get ⟨i, h⟩ = 0xc3 then
        liftLoop binary fuel (i + 1) ((pc + 1) % u64Mod) []
          (mapInsert blocks pc (current_block ++ [IRAp.Ret]))
      else
        liftLoop binary fuel (i + 1) ((pc + 1) % u64Mod) current_block blocks
    else blocks

/-- `Lifter::lift_x64`. The receiver's `self.blocks` field is passed in as
`self_blocks` and the updated map is returned inside the `Result`; the source
always ends with `Ok(())`, so the `Except` is always `ok`. -/
def lift_x64 (self_blocks : BlockMap) (binary : List Nat) (entry_point : Nat) :
    Except String BlockMap :=
  Except.ok (liftLoop binary binary.length 0 entry_point [] self_blocks)

/-- An IR operation is a control transfer when it is `Jmp`, `Bz`
(branch-if-zero), `Call` or `Ret`. -/
def isControlTransfer : IRAp → Bool
  | IRAp.Jmp _ => true
  | IRAp.Bz _ _ => true
  | IRAp.Call _ => true
  | IRAp.Ret => true
  | _ => false

/-- The per-operation lowering performed inside `Compiler::compile`'s inner
loop: `Add` emits `0x6a` (`i32.add`), `Sub` emits `0x6b` (`i32.sub`), `Ret`
emits `0x0b` (`end`); the source's `_ => {}` arm emits nothing for every other
operation. -/
def lowerOp : IRAp → List Nat
  | IRAp.Add _ _ _ => [0x6a]
  | IRAp.Sub _ _ _ => [0x6b]
  | IRAp.Ret => [0x0b]
  | _ => []

/-- `Compiler::compile`: the 8 header bytes (magic then version), then, for
each block in iteration order, the bytes emitted by the inner `match` over its
operations. The nested emit-into-`wasm_module` loops are the concatenation
`blocks.flatMap (fun block => block.2.flatMap lowerOp)`. The source never
returns `Err`. `optimization_level` plays no role in `compile` in the
source, so it is not a parameter here. -/
def compile (blocks : BlockMap) : Except String (List Nat) :=
  Except.ok (([0x00, 0x61, 0x73, 0x6d] ++ [0x01, 0x00, 0x00, 0x00]) ++
    blocks.flatMap (fun block => block.2.flatMap lowerOp))

/-- `Compiler::optimize`: the source body is an empty stub (comments only:
"Simple peephole optimization / E.g., remove Add(x, x, 0)"), so the `&mut`
block is left unchanged whatever the optimization level. -/
def optimize (optimization_level : Nat) (ir : List IRAp) : List IRAp :=
  ir

/-- Operations for which the `compile` inner `match` has an emitting arm. -/
def emitsOpcode : IRAp → Bool
  | IRAp.Add _ _ _ => true
  | IRAp.Sub _ _ _ => true
  | IRAp.Ret => true
  | _ => false

/-- `struct Linker` from `linker.rs`: a symbol table and the ordered import
list. -/
structure Linker where
  symbols : List (String × Nat)
  imports : List String
deriving DecidableEq, Repr

/-- `Linker::new`. -/
def Linker.new : Linker := ⟨[], []⟩

/-- The `for (idx, import) in required_imports.iter().enumerate()` loop of
`Linker::resolve_imports`: each pair pushes the name onto `self.imports` and
inserts `name ↦ idx as u32` into the accumulating `resolved_map`. -/
def resolveLoop : Linker → List (String × Nat) → List (Nat × String) →
    Linker × List (String × Nat)
  | l, resolved_map, [] => (l, resolved_map)
  | l, resolved_map, (idx, im) :: rest =>
    resolveLoop ⟨l.symbols, l.imports ++ [im]⟩
      (mapInsert resolved_map im (idx % u32Mod)) rest

/-- `Linker::resolve_imports`: enumerate the argument and run the loop with a
fresh `resolved_map`, returning the updated linker and the map. -/
def resolve_imports (l : Linker) (required_imports : List String) :
    Linker × List (String × Nat) :=
  resolveLoop l [] required_imports.enum

/-- `Linker::define_symbol`: insert (overwriting) into the symbol table. -/
def define_symbol (l : Linker) (name : String) (address : Nat) : Linker :=
  ⟨mapInsert l.symbols name address, l.imports⟩

/-! ## Helper lemmas -/

/-- A pointwise property of map entries is preserved by `mapInsert` when the
inserted pair satisfies it. -/
theorem mapInsert_forall {α β : Type} [DecidableEq α] (P : α × β → Prop)
    (m : List (α × β)) (k : α) (v : β)
    (hm : ∀ p ∈ m, P p) (hv : P (k, v)) :
    ∀ p ∈ mapInsert m k v, P p := by
  intro p hp
  unfold mapInsert at hp
  split at hp
  · rcases List.mem_map.mp hp with ⟨q, hq, hqe⟩
    by_cases h : q.1 = k
    · rw [if_pos h] at hqe
      subst hqe
      exact hv
    · rw [if_neg h] at hqe
      subst hqe
      exact hm q hq
  · rcases List.mem_append.mp hp with h | h
    · exact hm p h
    · rcases List.mem_singleton.mp h with rfl
      exact hv

/-- Every block the lift loop adds to the map ends in `Ret`: the only
insertion site is the `0xc3` arm, which appends `Ret` to the accumulated
block first. -/
theorem liftLoop_blocks_end_ret (binary : List Nat) :
    ∀ (fuel i pc : Nat) (cur : List IRAp) (blocks : BlockMap),
      (∀ p ∈ blocks, ∃ l, p.2 = l ++ [IRAp.Ret]) →
      ∀ p ∈ liftLoop binary fuel i pc cur blocks, ∃ l, p.2 = l ++ [IRAp.Ret] := by
  intro fuel
  induction fuel with
  | zero =>
    intro i pc cur blocks hb
    simpa [liftLoop] using hb
  | succ n ih =>
    intro i pc cur blocks hb p hp
    rw [liftLoop] at hp
    split at hp
    · split at hp
      · exact ih _ _ _ _ hb p hp
      · split at hp
        · split at hp
          · exact ih _ _ _ _ hb p hp
          · exact ih _ _ _ _ hb p hp
        · split at hp
          · refine ih _ _ _ _ ?_ p hp
            exact mapInsert_forall _ _ _ _ hb ⟨cur, rfl⟩
          · exact ih _ _ _ _ hb p hp
    · exact hb p hp

/-- The `resolved_map` built by the resolve loop does not depend on the
linker state threaded through it. -/
theorem resolveLoop_map_state_blind :
    ∀ (ps : List (Nat × String)) (l l' : Linker) (m : List (String × Nat)),
      (resolveLoop l m ps).2 = (resolveLoop l' m ps).2 := by
  intro ps
  induction ps with
  | nil => intro l l' m; rfl
  | cons q rest ih =>
    intro l l' m
    cases q with
    | mk idx im => exact ih _ _ _

/-- The resolve loop appends the processed names to the import list and
leaves the symbol table untouched. -/
theorem resolveLoop_linker (ps : List (Nat × String)) :
    ∀ (l : Linker) (m : List (String × Nat)),
      (resolveLoop l m ps).1.imports = l.imports ++ ps.map (fun q => q.2) ∧
      (resolveLoop l m ps).1.symbols = l.symbols := by
  induction ps with
  | nil => intro l m; simp [resolveLoop]
  | cons q rest ih =>
    intro l m
    cases q with
    | mk idx im =>
      rcases ih ⟨l.symbols, l.imports ++ [im]⟩
        (mapInsert m im (idx % u32Mod)) with ⟨h1, h2⟩
      refine ⟨?_, h2⟩
      simp [resolveLoop, h1]

/-- Each IR operation lowers to one byte exactly when it is `Add`, `Sub` or
`Ret`, and to no bytes otherwise. -/
theorem lowerOp_length (op : IRAp) :
    (lowerOp op).length = if emitsOpcode op then 1 else 0 := by
  cases op <;> rfl

/-- The bytes a block contributes to the module body are counted by its
`Add`/`Sub`/`Ret` operations. -/
theorem flatMap_lowerOp_length (ops : List IRAp) :
    (ops.flatMap lowerOp).length = (ops.filter emitsOpcode).length := by
  induction ops with
  | nil => rfl
  | cons op rest ih =>
    rw [List.flatMap_cons, List.length_append, ih, List.filter_cons]
    cases hop : emitsOpcode op
    · have hlow : lowerOp op = [] := by
        cases op <;> simp_all [emitsOpcode, lowerOp]
      simp [hop, hlow]
    · have hlow : (lowerOp op).length = 1 := by
        cases op <;> simp_all [emitsOpcode, lowerOp]
      simp [hop, hlow, Nat.add_comm]

/-- The length of the whole emitted body is the sum of the per-block counts
of `Add`/`Sub`/`Ret` operations. -/
theorem compileBody_length (blocks : BlockMap) :
    (blocks.flatMap (fun block => block.2.flatMap lowerOp)).length =
      (blocks.map (fun block => (block.2.filter emitsOpcode).length)).sum := by
  induction blocks with
  | nil => rfl
  | cons b rest ih =>
    rw [List.flatMap_cons, List.length_append, flatMap_lowerOp_length, ih,
      List.map_cons, List.sum_cons]

/-! ## Claims -/

/-- C1 (code evaluated at the failing input): lifting `[0x55, 0xc3]` at entry
`0x1000` produces exactly one block, but it is keyed `0x1001` — the `pc` after
one loop iteration — not the block start `0x1000`; the block does end in
`Ret`. Looking up `0x1000` in the produced map finds nothing. -/
theorem lift_push_ret_block_key :
    lift_x64 [] [0x55, 0xc3] 0x1000 =
      Except.ok [(0x1001, [IRAp.Store 0 0, IRAp.Ret])] ∧
    mapGet? [(0x1001, [IRAp.Store 0 0, IRAp.Ret])] 0x1000 = none := by
  exact ⟨rfl, rfl⟩

/-- C2 counterexample: resolving `["foo", "bar", "foo"]` on a fresh linker
maps `"foo"` to index `2` (its last position), not `0` as the claim states. -/
theorem resolve_imports_first_seen_cex :
    mapGet? (resolve_imports Linker.new ["foo", "bar", "foo"]).2 "foo" = some 2 ∧
    mapGet? (resolve_imports Linker.new ["foo", "bar", "foo"]).2 "foo" ≠ some 0 := by
  refine ⟨rfl, by decide⟩

/-- C2 (amended): resolving `["foo", "bar", "foo"]` on a fresh linker yields
the mapping `{foo ↦ 2, bar ↦ 1}` — every occurrence is assigned its position
in the argument and a repeated name is overwritten with its last position —
and every occurrence (including the repeat) is appended to the import list. -/
theorem resolve_imports_last_position :
    (resolve_imports Linker.new ["foo", "bar", "foo"]).2 =
      [("foo", 2), ("bar", 1)] ∧
    (resolve_imports Linker.new ["foo", "bar", "foo"]).1.imports =
      ["foo", "bar", "foo"] := by
  exact ⟨rfl, rfl⟩

/-- C3 counterexample: after `resolve_imports ["a", "b"]` assigned `"b"` the
index `1` and put it in the import list, a second call `resolve_imports ["b"]`
returns index `0` for `"b"`, not its previous index `1`. -/
theorem resolve_imports_reassigns_cex :
    mapGet? (resolve_imports Linker.new ["a", "b"]).2 "b" = some 1 ∧
    "b" ∈ (resolve_imports Linker.new ["a", "b"]).1.imports ∧
    mapGet? (resolve_imports (resolve_imports Linker.new ["a", "b"]).1 ["b"]).2
      "b" = some 0 ∧
    mapGet? (resolve_imports (resolve_imports Linker.new ["a", "b"]).1 ["b"]).2
      "b" ≠ some 1 := by
  refine ⟨rfl, by decide, rfl, by decide⟩

/-- C3 (amended): `resolve_imports` ignores the linker's prior state when
assigning indices — the returned mapping is exactly what a fresh linker would
return for the same argument (each name gets its position, last occurrence
winning), so a name that already has an index in the import list can be
reassigned a different one; the call appends every argument name to the im-
port list again and leaves the symbol table unchanged. -/
theorem resolve_imports_state_blind (l : Linker) (v : List String) :
    (resolve_imports l v).2 = (resolve_imports Linker.new v).2 ∧
    (resolve_imports l v).1.imports = l.imports ++ v ∧
    (resolve_imports l v).1.symbols = l.symbols := by
  refine ⟨resolveLoop_map_state_blind v.enum l Linker.new [], ?_, ?_⟩
  · rcases resolveLoop_linker v.enum l [] with ⟨h1, _⟩
    rw [resolve_imports, h1]
    rw [show (fun q : Nat × String => q.2) = Prod.snd from rfl]
    rw [List.enum_map_snd]
  · exact (resolveLoop_linker v.enum l []).2

/-- C4: for every binary buffer and entry point, every block in the map
produced by `lift_x64` on a fresh lifter is non-empty and its last operation
is a control transfer (in fact every block ends in `Ret`). -/
theorem lifted_blocks_end_in_control_transfer (binary : List Nat) (entry : Nat)
    (m : BlockMap) (hm : lift_x64 [] binary entry = Except.ok m) :
    ∀ p ∈ m, p.2 ≠ [] ∧ isControlTransfer (p.2.getLastD (IRAp.Jmp 0)) = true := by
  intro p hp
  have hm' : liftLoop binary binary.length 0 entry [] [] = m := by
    simpa [lift_x64] using hm
  rw [← hm'] at hp
  rcases liftLoop_blocks_end_ret binary binary.length 0 entry [] []
    (by intro q hq; cases hq) p hp with ⟨l, hl⟩
  constructor
  · simp [hl]
  · rw [hl, List.getLastD_concat]
    rfl

/-- C4 witness: instantiated on the one-byte buffer `[0xc3]` at entry `0`,
whose lift produces the single block `(0, [Ret])`. -/
theorem lifted_blocks_end_in_control_transfer_witness :
    ([IRAp.Ret] : List IRAp) ≠ [] ∧
    isControlTransfer (([IRAp.Ret] : List IRAp).getLastD (IRAp.Jmp 0)) = true :=
  lifted_blocks_end_in_control_transfer [0xc3] 0 [(0, [IRAp.Ret])] rfl
    (0, [IRAp.Ret]) (List.mem_singleton.mpr rfl)

/-- C5: for every non-empty block map, the compiled module's first 8 bytes
are the WebAssembly magic `\0asm` followed by version `1`. -/
theorem compile_output_begins_with_magic (blocks : BlockMap)
    (hne : blocks ≠ []) (out : List Nat)
    (hc : compile blocks = Except.ok out) :
    out.take 8 = [0x00, 0x61, 0x73, 0x6d, 0x01, 0x00, 0x00, 0x00] := by
  have h : (([0x00, 0x61, 0x73, 0x6d] ++ [0x01, 0x00, 0x00, 0x00]) ++
      blocks.flatMap (fun block => block.2.flatMap lowerOp)) = out := by
    simpa [compile] using hc
  rw [← h]
  rfl

/-- C5 witness: instantiated on the non-empty map `[(0, [Ret])]`, whose
compiled module is the header followed by the single byte `0x0b`. -/
theorem compile_output_begins_with_magic_witness :
    ([0x00, 0x61, 0x73, 0x6d, 0x01, 0x00, 0x00, 0x00, 0x0b] : List Nat).take 8 =
      [0x00, 0x61, 0x73, 0x6d, 0x01, 0x00, 0x00, 0x00] :=
  compile_output_begins_with_magic [(0, [IRAp.Ret])] (by decide)
    [0x00, 0x61, 0x73, 0x6d, 0x01, 0x00, 0x00, 0x00, 0x0b] rfl

/-- C6 counterexample: lifting the empty buffer returns `Ok` (with an empty
map), and lifting with entry point `999999` far outside a one-byte buffer
also returns `Ok` — never an `InvalidBinary`-style error as the claim
states. -/
theorem lift_x64_ok_on_empty_and_oob_cex :
    lift_x64 [] [] 0 = Except.ok [] ∧
    lift_x64 [] [0x90] 999999 = Except.ok [] := by
  exact ⟨rfl, rfl⟩

/-- C6 (amended): `lift_x64` never fails: for every starting map, buffer and
entry point — including the empty buffer and out-of-bounds entry points — it
returns `Ok`; the source contains no validity check and no error path. -/
theorem lift_x64_never_fails (self_blocks : BlockMap) (binary : List Nat)
    (entry_point : Nat) :
    ∃ m, lift_x64 self_blocks binary entry_point = Except.ok m :=
  ⟨_, rfl⟩

/-- C7 counterexample: a block holding the single operation `Mul(0, 0, 0)`
compiles to the bare 8-byte header — `Mul` is lowered to zero bytes, i.e.
silently dropped, contradicting the totality claim. -/
theorem compile_drops_mul_cex :
    compile [(0, [IRAp.Mul 0 0 0])] =
      Except.ok [0x00, 0x61, 0x73, 0x6d, 0x01, 0x00, 0x00, 0x00] ∧
    lowerOp (IRAp.Mul 0 0 0) = [] := by
  exact ⟨rfl, rfl⟩

/-- C7 (amended): the lowering is partial, not total: exactly the `Add`,
`Sub` and `Ret` operations emit one opcode byte each, and every other IR
operation emits no bytes, so the module length is 8 (header) plus the number
of `Add`/`Sub`/`Ret` operations across all blocks. -/
theorem compile_length_counts_emitted (blocks : BlockMap) :
    ∃ out, compile blocks = Except.ok out ∧
      out.length =
        8 + (blocks.map (fun block => (block.2.filter emitsOpcode).length)).sum ∧
      ∀ op : IRAp, (lowerOp op).length = if emitsOpcode op then 1 else 0 := by
  refine ⟨_, rfl, ?_, lowerOp_length⟩
  rw [List.length_append, compileBody_length]
  rfl

/-- C8 counterexample: the block map `{0 ↦ [Add], 1 ↦ [Sub]}` compiled in its
two iteration orders yields `…6a 6b` in one order and `…6b 6a` in the other:
byte-identical output is not guaranteed across iteration orders. -/
theorem compile_order_dependent_cex :
    compile [(0, [IRAp.Add 0 0 0]), (1, [IRAp.Sub 0 0 0])] =
      Except.ok [0x00, 0x61, 0x73, 0x6d, 0x01, 0x00, 0x00, 0x00, 0x6a, 0x6b] ∧
    compile [(1, [IRAp.Sub 0 0 0]), (0, [IRAp.Add 0 0 0])] =
      Except.ok [0x00, 0x61, 0x73, 0x6d, 0x01, 0x00, 0x00, 0x00, 0x6b, 0x6a] ∧
    ([0x00, 0x61, 0x73, 0x6d, 0x01, 0x00, 0x00, 0x00, 0x6a, 0x6b] : List Nat) ≠
      [0x00, 0x61, 0x73, 0x6d, 0x01, 0x00, 0x00, 0x00, 0x6b, 0x6a] := by
  refine ⟨rfl, rfl, by decide⟩

/-- C8 (amended): `compile` is a pure function of the iteration sequence, so
identical iteration orders give byte-identical output, but two iteration
orders of the same underlying mapping are only guaranteed to give outputs
that are permutations of each other (same byte multiset and length), not
byte-identical ones. -/
theorem compile_perm_of_map_perm (l₁ l₂ : BlockMap) (h : l₁.Perm l₂) :
    ∃ o₁ o₂, compile l₁ = Except.ok o₁ ∧ compile l₂ = Except.ok o₂ ∧
      o₁.Perm o₂ := by
  refine ⟨_, _, rfl, rfl, ?_⟩
  exact List.Perm.append_left _ (h.flatMap_right _)

/-- C8 witness: the permutation hypothesis discharged on the two orders of
the two-block map from the counterexample. -/
theorem compile_perm_of_map_perm_witness :
    ∃ o₁ o₂,
      compile [(0, [IRAp.Add 0 0 0]), (1, [IRAp.Sub 0 0 0])] = Except.ok o₁ ∧
      compile [(1, [IRAp.Sub 0 0 0]), (0, [IRAp.Add 0 0 0])] = Except.ok o₂ ∧
      o₁.Perm o₂ :=
  compile_perm_of_map_perm _ _
    (List.Perm.swap (1, [IRAp.Sub 0 0 0]) (0, [IRAp.Add 0 0 0]) [])

/-- C9 (code evaluated at the failing input): with optimization level `1`,
`optimize` leaves the block `[Add(0, 0, 0)]` unchanged — the identity-`Add`
is still present afterwards, because the source body of `optimize` is an
empty stub. -/
theorem optimize_keeps_identity_add :
    optimize 1 [IRAp.Add 0 0 0] = [IRAp.Add 0 0 0] ∧
    IRAp.Add 0 0 0 ∈ optimize 1 [IRAp.Add 0 0 0] := by
  refine ⟨rfl, by decide⟩

/-- C10: compiling the empty block map succeeds and yields exactly the
8 header bytes (magic and version) and nothing else. -/
theorem compile_empty_map_header_only :
    compile [] = Except.ok [0x00, 0x61, 0x73, 0x6d, 0x01, 0x00, 0x00, 0x00] ∧
    ([0x00, 0x61, 0x73, 0x6d, 0x01, 0x00, 0x00, 0x00] : List Nat).length = 8 := by
  exact ⟨rfl, rfl⟩
